import Mathlib

/-!
Shallow embedding of the Spec Matching & Dimension Validation Engine of the
CHECK_IMG-RESOLUTION repository (`src/utils/validation.ts` together with the
driver code in `src/App.tsx`), and proofs of the specification claims.

Modelling conventions:
* JavaScript strings are modelled as `List Char` (`Str`).
* JavaScript numbers are modelled as exact rationals `ℚ` (the algorithms use
  only comparisons, subtraction and absolute value; we idealize IEEE floats by
  exact rational arithmetic, which is the standard shallow embedding).
* Spreadsheet cell values (string, number, or empty/undefined) are the
  inductive `CellValue`.  A numeric cell carries both its numeric value and
  its JavaScript `String(...)` rendering, since the engine never recomputes
  one from the other in the paths we model.
* `Array.prototype.sort` with comparator `c` is modelled by the stable
  `List.mergeSort` with `le a b := c a b ≤ 0` (modern JS engines implement a
  stable sort, as required by ES2019).
-/

abbrev Str := List Char

/-! ### Slug Normalizer (`toSlug`, validation.ts lines 8-15) -/

/-- Is the character in `[a-z0-9]` (the characters kept by the slug regex)? -/
def isSlugChar (c : Char) : Bool :=
  (97 ≤ c.toNat && c.toNat ≤ 122) || (48 ≤ c.toNat && c.toNat ≤ 57)

/-- Pointwise step of `.replace(/[^a-z0-9]+/g, '-')`: every character outside
`[a-z0-9]` becomes a hyphen. -/
def hyphenate (l : Str) : Str :=
  l.map (fun c => if isSlugChar c then c else '-')

/-- Collapse consecutive hyphens into a single one; together with `hyphenate`
this implements `.replace(/[^a-z0-9]+/g, '-')`, which replaces every maximal
run of characters outside `[a-z0-9]` by one hyphen. -/
def collapse : Str → Str
  | [] => []
  | [c] => [c]
  | a :: b :: rest =>
    if a = '-' ∧ b = '-' then collapse (b :: rest) else a :: collapse (b :: rest)

/-- `.replace(/^-+|-+$/g, '')`: strip all leading and trailing hyphens. -/
def trimHyphens (l : Str) : Str :=
  ((l.dropWhile (fun c => c = '-')).reverse.dropWhile (fun c => c = '-')).reverse

/-- `toSlug` (validation.ts 8-15): lower-case, replace every maximal run of
characters outside `[a-z0-9]` with one hyphen, strip leading/trailing
hyphens; empty input yields the empty string. -/
def toSlug (text : Str) : Str :=
  if text = [] then []
  else trimHyphens (collapse (hyphenate (text.map Char.toLower)))

/-! ### Column-Range Selector (`colLetterToIndex`, validation.ts 18-26) -/

/-- `colLetterToIndex` (validation.ts 18-26): upper-case the letters, fold
`result = result * 26 + (charCode - 64)`, and subtract one at the end. -/
def colLetterToIndex (letter : Str) : Int :=
  let column := letter.map Char.toUpper
  (column.foldl (fun result c => result * 26 + ((c.toNat : Int) - 64)) 0) - 1

/-! ### Generic string helpers used by the engine -/

/-- JavaScript `String.prototype.trim()` (whitespace stripped at both ends). -/
def jsTrim (s : Str) : Str :=
  ((s.dropWhile Char.isWhitespace).reverse.dropWhile Char.isWhitespace).reverse

/-- Case-insensitive equality of strings (for the `/^…$/i` header patterns). -/
def ciEq (a b : Str) : Bool :=
  a.map Char.toLower == b.map Char.toLower

/-- JavaScript `hay.includes(needle)`: contiguous-substring test. -/
def includesSub (hay needle : Str) : Bool :=
  hay.tails.any (fun t => needle.isPrefixOf t)

/-- Model of `String.prototype.localeCompare` restricted to a deterministic
code-point lexicographic collation (total, and `0` only on equal strings). -/
def localeCompare : Str → Str → Int
  | [], [] => 0
  | [], _ :: _ => -1
  | _ :: _, [] => 1
  | a :: as, b :: bs =>
    if a.toNat < b.toNat then -1
    else if b.toNat < a.toNat then 1
    else localeCompare as bs

/-- `fileName.replace(/\.[^/.]+$/, "")` (validation.ts 137): drop a trailing
`.ext` whose extension part is non-empty and free of `/` and `.`. -/
def stripExtension (l : Str) : Str :=
  let r := l.reverse
  let ext := r.takeWhile (fun c => c ≠ '.' ∧ c ≠ '/')
  let rest := r.dropWhile (fun c => c ≠ '.' ∧ c ≠ '/')
  match rest with
  | '.' :: rem => if ext ≠ [] then rem.reverse else l
  | _ => l

/-! ### Numeric Extractor (`extractNumbers`, validation.ts 29-36) -/

/-- A spreadsheet cell value as seen by the engine after `sheet_to_json`:
a string, a number (with its JavaScript `String(...)` rendering), or
empty/undefined. -/
inductive CellValue where
  | str (s : Str)
  | num (q : ℚ) (render : Str)
  | empty
deriving DecidableEq

/-- JavaScript truthiness of a cell value (`!value` negated):
`0`, `''` and `undefined` are falsy. -/
def CellValue.truthy : CellValue → Bool
  | .str s => s ≠ []
  | .num q _ => q ≠ 0
  | .empty => false

/-- JavaScript `String(value)`.  Only ever applied to truthy values or `''`
in the modelled code, so the `empty` case is immaterial. -/
def CellValue.jsString : CellValue → Str
  | .str s => s
  | .num _ r => r
  | .empty => []

/-- One attempt of the regex `-?\d*\.?\d+` at the start of `l`
(with JavaScript greedy backtracking): returns the matched token and the
remaining suffix, or `none` if no match starts here. -/
def matchNumAt (l : Str) : Option (Str × Str) :=
  let hasNeg := l.head? = some '-'
  let sign : Str := if hasNeg then ['-'] else []
  let l1 := if hasNeg then l.tail else l
  let ip := l1.takeWhile Char.isDigit
  let l2 := l1.dropWhile Char.isDigit
  if l2.head? = some '.' ∧ l2.tail.takeWhile Char.isDigit ≠ [] then
    some (sign ++ ip ++ '.' :: l2.tail.takeWhile Char.isDigit,
          l2.tail.dropWhile Char.isDigit)
  else if ip ≠ [] then some (sign ++ ip, l2)
  else none

/-- Global scan of the regex `-?\d*\.?\d+` (flag g): find the leftmost match,
emit it, continue after it (fuel = remaining length, always sufficient). -/
def scanNumsGo : Nat → Str → List Str
  | 0, _ => []
  | _, [] => []
  | fuel + 1, c :: cs =>
    match matchNumAt (c :: cs) with
    | some (tok, rest) => tok :: scanNumsGo fuel rest
    | none => scanNumsGo fuel cs

/-- All tokens matched by the global regex `-?\d*\.?\d+` over the string. -/
def scanNums (l : Str) : List Str := scanNumsGo l.length l

/-- Value of a digit string read in base 10. -/
def digitsVal (l : Str) : ℕ :=
  l.foldl (fun a c => a * 10 + (c.toNat - 48)) 0

/-- JavaScript `Number(tok)` on a token produced by the scanner
(`-?` sign, integer digits, optional `.` + fraction digits), as an exact
rational. -/
def parseToken (tok : Str) : ℚ :=
  let hasNeg := tok.head? = some '-'
  let t := if hasNeg then tok.tail else tok
  let ip := t.takeWhile Char.isDigit
  let rest := t.dropWhile Char.isDigit
  let v : ℚ :=
    match rest with
    | '.' :: fp => (digitsVal ip : ℚ) + (digitsVal fp : ℚ) / (10 ^ fp.length : ℚ)
    | _ => (digitsVal ip : ℚ)
  if hasNeg then -v else v

/-- `extractNumbers` (validation.ts 29-36): a numeric value yields itself;
a falsy value yields `[]`; otherwise every regex match is parsed.  (The
original's `.filter(n => !isNaN(n))` never drops anything on tokens of this
shape and is omitted.) -/
def extractNumbers : CellValue → List ℚ
  | .num q _ => [q]
  | .empty => []
  | .str s => if s = [] then [] else (scanNums s).map parseToken

/-! ### Spec Table Builder (`parseSpecFile`, validation.ts 39-125)

File reading and the xlsx decode are external collaborators; the model's
inputs are the decoded row maps (`sheet_to_json`), the literal header row
(`sheet_to_json` with `header: 1`, first row), and the optional column-range
configuration. -/

/-- A decoded spreadsheet row: an ordered key→value map. -/
abbrev Row := List (Str × CellValue)

/-- `ValidationConfig` (types.ts): a column-letter range. -/
structure ValidationConfig where
  startCol : Str
  endCol : Str
deriving DecidableEq

/-- `row[k]`: first binding of the key, or undefined. -/
def rowGet (row : Row) (k : Str) : CellValue :=
  match row.find? (fun e => e.1 == k) with
  | some e => e.2
  | none => .empty

/-- `row[k] || ''`: falsy lookup results are replaced by the empty string. -/
def rowGetOr (row : Row) (k : Str) : CellValue :=
  let v := rowGet row k
  if v.truthy then v else .str []

/-- Tolerance constant (validation.ts 4). -/
def TOLERANCE : ℚ := 0.5

/-- Does the trimmed key match `^word1\s*word2$` case-insensitively? -/
def ciSpacedPat (word1 word2 : Str) (k : Str) : Bool :=
  let kl := (jsTrim k).map Char.toLower
  word1.isPrefixOf kl && (kl.drop word1.length).dropWhile Char.isWhitespace == word2

/-- The ordered product-name header patterns (validation.ts 59-61), each
tested against the trimmed key. -/
def productNamePatterns : List (Str → Bool) :=
  [ fun k => ciSpacedPat "product".toList "name".toList k
  , fun k => ciEq (jsTrim k) "product".toList
  , fun k => ciSpacedPat "model".toList "name".toList k
  , fun k => ciEq (jsTrim k) "model".toList
  , fun k => ciSpacedPat "item".toList "name".toList k
  , fun k => ciEq (jsTrim k) "name".toList
  , fun k => includesSub (k.map Char.toLower) "name".toList ]

/-- Pick the product-name column (validation.ts 63-71): first pattern having
a matching key wins; fall back to the literal `"Product Name"`. -/
def findProductNameKey (keys : List Str) : Str :=
  (productNamePatterns.filterMap (fun pat => keys.find? pat)).headD "Product Name".toList

/-- Pick the size column (validation.ts 89): first key matching `^size$` or
`^dimension$` case-insensitively on the trimmed key, else `"Size"`. -/
def findSizeKey (keys : List Str) : Str :=
  (keys.find? (fun k =>
    ciEq (jsTrim k) "size".toList || ciEq (jsTrim k) "dimension".toList)).getD "Size".toList

/-- The loop `for (let i = start; i <= end; i++)` as a list of indices. -/
def intRangeIncl (start stop : Int) : List Int :=
  (List.range (stop + 1 - start).toNat).map (fun i => start + i)

/-- `headers[i]` with out-of-bounds (and negative) access yielding undefined. -/
def headerAt (headers : List Str) (i : Int) : Option Str :=
  if h : 0 ≤ i ∧ i.toNat < headers.length then some (headers.get ⟨i.toNat, h.2⟩)
  else none

/-- `allowedKeys` (validation.ts 74-83): indices of the configured letter
range (or all indices when no complete range is configured), mapped through
the header row, dropping undefined entries. -/
def allowedKeysOf (headers : List Str) (config : Option ValidationConfig) : List Str :=
  let allowedIndices : List Int :=
    match config with
    | some cfg =>
      if cfg.startCol ≠ [] ∧ cfg.endCol ≠ [] then
        intRangeIncl (colLetterToIndex cfg.startCol) (colLetterToIndex cfg.endCol)
      else (List.range headers.length).map (fun i => (i : Int))
    | none => (List.range headers.length).map (fun i => (i : Int))
  allowedIndices.filterMap (headerAt headers)

/-- Truthiness of `config && config.startCol` (validation.ts 95). -/
def cfgHasStartCol : Option ValidationConfig → Bool
  | some cfg => cfg.startCol ≠ []
  | none => false

/-- The reserved metadata substrings (validation.ts 99). -/
def reservedKeywords : List Str :=
  ["product".toList, "name".toList, "size".toList, "id".toList,
   "model".toList, "row".toList, "sku".toList]

/-- `SpecRow` (types.ts). -/
structure SpecRow where
  productName : Str
  productSlug : Str
  size : Str
  expectedDimensions : List ℚ
  originalRow : Row
deriving DecidableEq

/-- Is this row entry skipped by the dimension scan (validation.ts 94-100)?
With a configured start column only keys of the allowed range are scanned;
otherwise keys containing a reserved substring are skipped. -/
def entrySkipped (config : Option ValidationConfig) (allowedKeys : List Str)
    (key : Str) : Bool :=
  if cfgHasStartCol config then !(allowedKeys.contains key)
  else reservedKeywords.any (fun w => includesSub (key.map Char.toLower) w)

/-- The row→`SpecRow` mapping (validation.ts 86-115): trimmed product name,
its slug, trimmed size, and the dimension numbers swept from the non-skipped
entries (kept only when strictly between 0 and 2000) sorted ascending. -/
def buildSpecRow (config : Option ValidationConfig) (allowedKeys : List Str)
    (productNameKey sizeKey : Str) (row : Row) : SpecRow :=
  let productName := jsTrim (rowGetOr row productNameKey).jsString
  let dims := row.foldl (fun acc kv =>
    if entrySkipped config allowedKeys kv.1 then acc
    else (extractNumbers kv.2).foldl
      (fun a num => if 0 < num ∧ num < 2000 then a ++ [num] else a) acc) []
  { productName := productName
    productSlug := toSlug productName
    size := jsTrim (rowGetOr row sizeKey).jsString
    expectedDimensions := dims.mergeSort (fun a b => decide (a ≤ b))
    originalRow := row }

/-- The pure core of `parseSpecFile` (validation.ts 39-125), taking the
decoded `jsonData` rows, the literal header row and the configuration.
(The size key is computed per row in the source, but only from the first
row's keys, so it is constant and hoisted here.) -/
def parseSpecFile (jsonData : List Row) (headers : List Str)
    (config : Option ValidationConfig) : List SpecRow :=
  if jsonData = [] then []
  else
    let keys := (jsonData.headD []).map (fun e => e.1)
    let productNameKey := findProductNameKey keys
    let sizeKey := findSizeKey keys
    let allowedKeys := allowedKeysOf headers config
    (jsonData.map (buildSpecRow config allowedKeys productNameKey sizeKey)).filter
      (fun s => s.productName ≠ [] && s.productSlug.length > 0)

/-! ### Matcher (`findAllMatchingSpecs`, validation.ts 127-174) -/

/-- The sort comparator of validation.ts 164-171: descending slug length,
ties by `localeCompare` on the product names. -/
def specCompare (a b : SpecRow) : Int :=
  if b.productSlug.length ≠ a.productSlug.length then
    (b.productSlug.length : Int) - (a.productSlug.length : Int)
  else localeCompare a.productName b.productName

/-- `findAllMatchingSpecs` (validation.ts 134-174): slugify the
extension-stripped file name; keep the specs whose non-empty slug is a
substring of it; rank by the comparator. -/
def findAllMatchingSpecs (fileName : Str) (specs : List SpecRow) : List SpecRow :=
  let fileStem := stripExtension fileName
  let fileSlug := toSlug fileStem
  if fileSlug = [] then []
  else
    let candidates := specs.filter
      (fun spec => spec.productSlug ≠ [] && includesSub fileSlug spec.productSlug)
    if candidates.length = 0 then []
    else candidates.mergeSort (fun a b => decide (specCompare a b ≤ 0))

/-- `findMatchingSpec` (validation.ts 127-130): head of the ranked list. -/
def findMatchingSpec (fileName : Str) (specs : List SpecRow) : Option SpecRow :=
  (findAllMatchingSpecs fileName specs).head?

/-! ### Dimension Validator (`validateDimensions`, validation.ts 176-221) -/

/-- Validation statuses (types.ts). -/
inductive ValidationStatus where
  | PERFECT | MISSING | EXTRA | MISMATCH | NO_MATCH
deriving DecidableEq

/-- One matched pair `{expected, detected, diff}`. -/
structure MatchTriple where
  expected : ℚ
  detected : ℚ
  diff : ℚ
deriving DecidableEq

/-- `ValidationResult` (types.ts). -/
structure ValidationResult where
  status : ValidationStatus
  matchedRow : Option SpecRow
  «matches» : List MatchTriple
  missing : List ℚ
  extra : List ℚ
deriving DecidableEq

/-- The inner search loop of validation.ts 185-194: scan `extra` for the
index with minimal `|exp - d|`, accepting only differences within tolerance
and strictly improving on the best so far.  The accumulator is
`some (bestMatchIdx, extra[bestMatchIdx], minDiff)`, with `none` standing
for the initial `bestMatchIdx = -1` / `minDiff = Number.MAX_VALUE` (every
in-tolerance difference is below `Number.MAX_VALUE`). -/
def findBestAux (exp : ℚ) : List ℚ → Nat → Option (Nat × ℚ × ℚ) →
    Option (Nat × ℚ × ℚ)
  | [], _, best => best
  | d :: rest, i, best =>
    let diff := |exp - d|
    let keep : Bool :=
      match best with
      | none => diff ≤ TOLERANCE
      | some (_, _, minDiff) => diff ≤ TOLERANCE ∧ diff < minDiff
    findBestAux exp rest (i + 1) (if keep then some (i, d, diff) else best)

/-- The best-match search started on the full pool. -/
def findBest (exp : ℚ) (extra : List ℚ) : Option (Nat × ℚ × ℚ) :=
  findBestAux exp extra 0 none

/-- State of the outer loop of validation.ts 184-206. -/
structure VDState where
  «matches» : List MatchTriple
  missing : List ℚ
  extra : List ℚ
deriving DecidableEq

/-- One iteration of the outer loop: match and splice, or record missing. -/
def vdStep (st : VDState) (exp : ℚ) : VDState :=
  match findBest exp st.extra with
  | some (i, d, m) =>
    { st with «matches» := st.«matches» ++ [⟨exp, d, m⟩], extra := st.extra.eraseIdx i }
  | none => { st with missing := st.missing ++ [exp] }

/-- `validateDimensions` (validation.ts 176-221). -/
def validateDimensions (detected : List ℚ) (spec : SpecRow) : ValidationResult :=
  let sortedDetected := detected.mergeSort (fun a b => decide (a ≤ b))
  let sortedExpected := spec.expectedDimensions.mergeSort (fun a b => decide (a ≤ b))
  let st := sortedExpected.foldl vdStep ⟨[], [], sortedDetected⟩
  let status : ValidationStatus :=
    if st.missing.length = 0 ∧ st.extra.length = 0 then .PERFECT
    else if st.missing.length > 0 ∧ st.extra.length = 0 then .MISSING
    else if st.missing.length = 0 ∧ st.extra.length > 0 then .EXTRA
    else .MISMATCH
  { status := status, matchedRow := some spec, «matches» := st.«matches»,
    missing := st.missing, extra := st.extra }

/-! ### The reference greedy algorithm, written from the specification text
(spec.md §4.6), for the refinement claim C1.  "For each expected value `e`,
scan the current `pool` for the element `d` minimizing `|e - d|` subject to
`|e - d| ≤ T`"; on a tie the first such element of the pool is taken. -/

/-- The admissible differences of the pool against `e`. -/
def admissibleDiffs (exp : ℚ) (pool : List ℚ) : List ℚ :=
  (pool.map (fun d => |exp - d|)).filter (fun m => m ≤ TOLERANCE)

/-- Spec-side selection: the minimum admissible difference, if any, together
with the first pool index attaining it. -/
def specSelect (exp : ℚ) (pool : List ℚ) : Option (Nat × ℚ) :=
  (admissibleDiffs exp pool).min?.map
    (fun m => (pool.findIdx (fun d => |exp - d| == m), m))

/-- One spec-side greedy step over (matchedPairs, unmatchedExpected, pool). -/
def specStep (st : VDState) (exp : ℚ) : VDState :=
  match specSelect exp st.extra with
  | some (i, m) =>
    { st with «matches» := st.«matches» ++ [⟨exp, st.extra.getD i 0, m⟩],
              extra := st.extra.eraseIdx i }
  | none => { st with missing := st.missing ++ [exp] }

/-- The spec-side greedy reconciliation: sort both sides ascending, run the
greedy steps, leftover pool values are the unmatched detected ones. -/
def specValidate (detected expected : List ℚ) : VDState :=
  (expected.mergeSort (fun a b => decide (a ≤ b))).foldl specStep
    ⟨[], [], detected.mergeSort (fun a b => decide (a ≤ b))⟩

/-- The spec-side classification (spec.md §4.6 step 4). -/
def specStatus (st : VDState) : ValidationStatus :=
  if st.missing = [] ∧ st.extra = [] then .PERFECT
  else if st.extra = [] then .MISSING
  else if st.missing = [] then .EXTRA
  else .MISMATCH

/-! ### Driver (`App.tsx`): single-analysis validation and the batch loop -/

/-- The `NO_MATCH` result object made by the caller (App.tsx 71). -/
def noMatchResult : ValidationResult :=
  { status := .NO_MATCH, matchedRow := none, «matches» := [], missing := [], extra := [] }

/-- The validation part of `handleAnalysis` (App.tsx 62-80): with specs
loaded and a file name present, validate against the best match, or make the
`NO_MATCH` result; otherwise no validation result at all. -/
def handleAnalysisValidation (specs : List SpecRow) (fileName : Str)
    (dims : List ℚ) : Option ValidationResult :=
  if specs.length > 0 ∧ fileName ≠ [] then
    match findMatchingSpec fileName specs with
    | some m => some (validateDimensions dims m)
    | none => some noMatchResult
  else none

/-- Batch item statuses (types.ts). -/
inductive BatchStatus where
  | PENDING | PROCESSING | COMPLETED | ERROR | SKIPPED
deriving DecidableEq

/-- A batch item (types.ts), file payload elided. -/
structure BatchItem where
  fileName : Str
  status : BatchStatus
  matchedSpecs : List SpecRow
  aiDims : Option (List ℚ)
  validations : List ValidationResult
  error : Option Str
deriving DecidableEq

/-- `handleBatchSelection` (App.tsx 91-108): queue the files as pending
items with their matches precomputed by the Matcher. -/
def handleBatchSelection (specs : List SpecRow) (fileNames : List Str) : List BatchItem :=
  fileNames.map (fun name =>
    { fileName := name, status := .PENDING,
      matchedSpecs := if specs.length > 0 then findAllMatchingSpecs name specs else [],
      aiDims := none, validations := [], error := none })

/-- One iteration of the `processBatch` loop (App.tsx 118-187) on item `i`.
The external extraction call (base64 conversion plus `analyzeContent`) is
the oracle `ai`; the returned flag records whether that call was issued. -/
def processItem (ai : Nat → Except Str (List ℚ)) (i : Nat) (item : BatchItem) :
    BatchItem × Bool :=
  if item.status = .COMPLETED ∨ item.status = .SKIPPED then (item, false)
  else if item.matchedSpecs.length = 0 then
    ({ item with status := .SKIPPED,
                 error := some "Skipped: No matching Spec Row found".toList }, false)
  else
    match ai i with
    | .ok dims =>
      ({ item with status := .COMPLETED, aiDims := some dims,
                   validations := item.matchedSpecs.map (validateDimensions dims) }, true)
    | .error e => ({ item with status := .ERROR, error := some e }, true)

/-- The sequential batch loop from position `i`, returning the final items
and the positions for which the extraction call was issued, in order. -/
def processBatchAux (ai : Nat → Except Str (List ℚ)) :
    Nat → List BatchItem → List BatchItem × List Nat
  | _, [] => ([], [])
  | i, item :: rest =>
    let (item', called) := processItem ai i item
    let (rest', calls) := processBatchAux ai (i + 1) rest
    (item' :: rest', (if called then [i] else []) ++ calls)

/-- `processBatch` (App.tsx 111-190) as a pure transform plus call trace. -/
def processBatch (ai : Nat → Except Str (List ℚ)) (items : List BatchItem) :
    List BatchItem × List Nat :=
  processBatchAux ai 0 items

/-! ### Specification-side definitions used by the claims -/

/-- Modelled from the spec: the digit value (1 through 26) of a column
letter, case-insensitively (`A`/`a` is 1, `Z`/`z` is 26). -/
def letterDigit (c : Char) : ℕ :=
  if 97 ≤ c.toNat then c.toNat - 96 else c.toNat - 64

/-- Modelled from the spec: the value of a string of digits read as a
base-26 numeral with digit values 1 through 26. -/
def base26Val (ds : List ℕ) : ℕ := ds.foldl (fun a d => a * 26 + d) 0

/-- A `SpecRow` carrying only an expected-dimension list (for concrete
validator examples). -/
def mkSpec (dims : List ℚ) : SpecRow :=
  { productName := [], productSlug := [], size := [],
    expectedDimensions := dims, originalRow := [] }

/-- The bound test of the inner search loop: within tolerance, and strictly
below the best difference so far (`none` = no best yet). -/
def underBound (bound : Option ℚ) (m : ℚ) : Bool :=
  decide (m ≤ TOLERANCE) && (match bound with | none => true | some b => decide (m < b))

/-- The differences of the pool elements against `exp` that pass
`underBound`. -/
def candDiffs (exp : ℚ) (bound : Option ℚ) (l : List ℚ) : List ℚ :=
  (l.map (fun d => |exp - d|)).filter (underBound bound)

/-! ### Helper lemmas about characters -/

theorem charToNat_ofNat {n : Nat} (h : n < 55296) : (Char.ofNat n).toNat = n := by
  have hv : n.isValidChar := Or.inl h
  simp [Char.ofNat, dif_pos hv, Char.ofNatAux, Char.toNat, UInt32.toNat]

theorem char_isAlpha_iff (c : Char) :
    c.isAlpha = true ↔ (65 ≤ c.toNat ∧ c.toNat ≤ 90) ∨ (97 ≤ c.toNat ∧ c.toNat ≤ 122) := by
  simp [Char.isAlpha, Char.isUpper, Char.isLower, UInt32.le_def, BitVec.le_def, Char.toNat]
  rfl

/-! ### C8: column letters as a base-26 numeral -/

theorem toUpper_toNat_sub (c : Char) (h : c.isAlpha = true) :
    ((Char.toUpper c).toNat : Int) - 64 = (letterDigit c : Int) := by
  rw [char_isAlpha_iff] at h
  unfold Char.toUpper
  rcases h with ⟨h1, h2⟩ | ⟨h1, h2⟩
  · rw [if_neg (by omega)]
    unfold letterDigit
    rw [if_neg (by omega)]
    omega
  · rw [if_pos (by omega)]
    rw [charToNat_ofNat (by omega)]
    unfold letterDigit
    rw [if_pos (by omega)]
    omega

theorem colLetter_foldl (l : Str) (hl : ∀ c ∈ l, c.isAlpha = true) :
    ∀ acc : ℕ,
      (l.map Char.toUpper).foldl (fun result c => result * 26 + ((c.toNat : Int) - 64))
        (acc : Int)
        = (l.foldl (fun a d => a * 26 + letterDigit d) acc : ℕ) := by
  induction l with
  | nil => intro acc; simp
  | cons c cs ih =>
    intro acc
    have hc : c.isAlpha = true := hl c (List.mem_cons_self c cs)
    have hcs : ∀ x ∈ cs, x.isAlpha = true := fun x hx => hl x (List.mem_cons_of_mem c hx)
    simp only [List.map_cons, List.foldl_cons]
    have : (acc : Int) * 26 + ((Char.toUpper c).toNat - 64)
        = ((acc * 26 + letterDigit c : ℕ) : Int) := by
      have := toUpper_toNat_sub c hc
      push_cast
      omega
    rw [this, ih hcs]

/-- C8: `colLetterToIndex` implements spreadsheet base-26 encoding: `"A"`
gives 0, `"Z"` gives 25, `"AA"` gives 26, `"AB"` gives 27, and on every
non-empty string of letters it computes the value of the string read as a
base-26 numeral with digit values 1 through 26, minus 1. -/
theorem colLetterToIndex_base26 :
    colLetterToIndex "A".toList = 0 ∧ colLetterToIndex "Z".toList = 25 ∧
    colLetterToIndex "AA".toList = 26 ∧ colLetterToIndex "AB".toList = 27 ∧
    ∀ l : Str, l ≠ [] → (∀ c ∈ l, c.isAlpha = true) →
      colLetterToIndex l = (base26Val (l.map letterDigit) : Int) - 1 := by
  refine ⟨by decide, by decide, by decide, by decide, ?_⟩
  intro l _ hl
  unfold colLetterToIndex base26Val
  have h0 := colLetter_foldl l hl 0
  simp only [Nat.cast_zero] at h0
  simp only []
  rw [h0]
  congr 1
  rw [List.foldl_map]

/-- Witness for C8 at the concrete input `"AB"`. -/
theorem colLetterToIndex_base26_witness :
    colLetterToIndex "AB".toList = (base26Val ("AB".toList.map letterDigit) : Int) - 1 :=
  colLetterToIndex_base26.2.2.2.2 "AB".toList (by decide) (by decide)

/-! ### Characterizing the inner best-match search -/

theorem rat_min?_eq_some_iff {xs : List ℚ} {a : ℚ} :
    xs.min? = some a ↔ a ∈ xs ∧ ∀ b ∈ xs, a ≤ b := by
  haveI : Std.Antisymm ((· : ℚ) ≤ ·) := ⟨fun h1 h2 => le_antisymm h1 h2⟩
  exact List.min?_eq_some_iff (fun _ => le_refl _) (fun a b => min_choice a b)
    (fun _ _ _ => le_min_iff)

theorem mem_candDiffs {exp x : ℚ} {bound : Option ℚ} {l : List ℚ} :
    x ∈ candDiffs exp bound l ↔ (∃ d ∈ l, |exp - d| = x) ∧ underBound bound x = true := by
  simp [candDiffs, List.mem_filter, List.mem_map]

theorem mem_admissibleDiffs {exp x : ℚ} {pool : List ℚ} :
    x ∈ admissibleDiffs exp pool ↔ (∃ d ∈ pool, |exp - d| = x) ∧ x ≤ TOLERANCE := by
  simp [admissibleDiffs, List.mem_filter, List.mem_map]

theorem underBound_iff {bound : Option ℚ} {m : ℚ} :
    underBound bound m = true ↔ m ≤ TOLERANCE ∧ ∀ b, bound = some b → m < b := by
  cases bound <;> simp [underBound]

theorem findBestAux_cons (exp d : ℚ) (rest : List ℚ) (i : Nat)
    (acc : Option (Nat × ℚ × ℚ)) :
    findBestAux exp (d :: rest) i acc =
      findBestAux exp rest (i + 1)
        (if underBound (acc.map (fun x => x.2.2)) |exp - d| then some (i, d, |exp - d|)
         else acc) := by
  cases acc with
  | none => simp [findBestAux, underBound]
  | some x =>
    rcases x with ⟨j, v, b⟩
    simp [findBestAux, underBound, Bool.decide_and]

theorem findBestAux_eq (exp : ℚ) :
    ∀ (l : List ℚ) (i : Nat) (acc : Option (Nat × ℚ × ℚ)),
      findBestAux exp l i acc =
        match (candDiffs exp (acc.map (fun x => x.2.2)) l).min? with
        | none => acc
        | some m =>
          some (i + l.findIdx (fun d => |exp - d| == m),
                l.getD (l.findIdx (fun d => |exp - d| == m)) 0, m) := by
  intro l
  induction l with
  | nil => intro i acc; simp [findBestAux, candDiffs]
  | cons d rest ih =>
    intro i acc
    rw [findBestAux_cons]
    set bnd := acc.map (fun x => x.2.2) with hbnd
    by_cases hk : underBound bnd |exp - d| = true
    · rw [if_pos hk, ih]
      simp only [Option.map_some']
      have hcons : candDiffs exp bnd (d :: rest) = |exp - d| :: candDiffs exp bnd rest := by
        simp [candDiffs, hk]
      rw [hcons]
      cases hmin : (candDiffs exp (some |exp - d|) rest).min? with
      | none =>
        have hempty : candDiffs exp (some |exp - d|) rest = [] :=
          List.min?_eq_none_iff.mp hmin
        have hmin2 : (|exp - d| :: candDiffs exp bnd rest).min? = some |exp - d| := by
          rw [rat_min?_eq_some_iff]
          refine ⟨List.mem_cons_self _ _, ?_⟩
          intro x hx
          rcases List.mem_cons.mp hx with h | h
          · exact h ▸ le_refl _
          · by_contra hxe
            push_neg at hxe
            have hx' : x ∈ candDiffs exp (some |exp - d|) rest := by
              rcases mem_candDiffs.mp h with ⟨hd', hub⟩
              refine mem_candDiffs.mpr
                ⟨hd', underBound_iff.mpr ⟨(underBound_iff.mp hub).1, ?_⟩⟩
              intro b hb
              injection hb with hb2
              exact hb2 ▸ hxe
            rw [hempty] at hx'
            exact absurd hx' (List.not_mem_nil x)
        rw [hmin2]
        have hfi : (d :: rest).findIdx (fun x => |exp - x| == |exp - d|) = 0 := by
          rw [List.findIdx_cons]
          simp
        dsimp only
        rw [hfi]
        simp
      | some m =>
        rcases rat_min?_eq_some_iff.mp hmin with ⟨hmem, hminim⟩
        rcases mem_candDiffs.mp hmem with ⟨⟨d', hd', hdm⟩, hub⟩
        have hmTol : m ≤ TOLERANCE := (underBound_iff.mp hub).1
        have hmlt : m < |exp - d| := (underBound_iff.mp hub).2 _ rfl
        have hmin2 : (|exp - d| :: candDiffs exp bnd rest).min? = some m := by
          rw [rat_min?_eq_some_iff]
          constructor
          · refine List.mem_cons_of_mem _ (mem_candDiffs.mpr
              ⟨⟨d', hd', hdm⟩, underBound_iff.mpr ⟨hmTol, ?_⟩⟩)
            intro b hb
            exact lt_trans hmlt ((underBound_iff.mp hk).2 b hb)
          · intro x hx
            rcases List.mem_cons.mp hx with h | h
            · exact h ▸ le_of_lt hmlt
            · by_cases hxd : x < |exp - d|
              · refine hminim x ?_
                rcases mem_candDiffs.mp h with ⟨hd2, hub2⟩
                refine mem_candDiffs.mpr
                  ⟨hd2, underBound_iff.mpr ⟨(underBound_iff.mp hub2).1, ?_⟩⟩
                intro b hb
                injection hb with hb2
                exact hb2 ▸ hxd
              · push_neg at hxd
                exact le_of_lt (lt_of_lt_of_le hmlt hxd)
        rw [hmin2]
        have hne : (|exp - d| == m) = false := by
          rw [beq_eq_false_iff_ne]
          exact fun h => absurd (h ▸ hmlt) (lt_irrefl _)
        have hfi : (d :: rest).findIdx (fun x => |exp - x| == m)
            = rest.findIdx (fun x => |exp - x| == m) + 1 := by
          rw [List.findIdx_cons]
          simp [hne]
        dsimp only
        rw [hfi, List.getD_cons_succ]
        have harith : i + 1 + rest.findIdx (fun x => |exp - x| == m)
            = i + (rest.findIdx (fun x => |exp - x| == m) + 1) := by omega
        rw [harith]
    · rw [if_neg hk, ih]
      have hcons : candDiffs exp bnd (d :: rest) = candDiffs exp bnd rest := by
        simp only [candDiffs, List.map_cons, List.filter_cons]
        rw [Bool.not_eq_true] at hk
        simp [hk]
      rw [hcons]
      cases hmin : (candDiffs exp bnd rest).min? with
      | none => rfl
      | some m =>
        rcases rat_min?_eq_some_iff.mp hmin with ⟨hmem, _⟩
        rcases mem_candDiffs.mp hmem with ⟨_, hub⟩
        have hne : (|exp - d| == m) = false := by
          rw [beq_eq_false_iff_ne]
          intro h
          rw [h] at hk
          exact hk hub
        have hfi : (d :: rest).findIdx (fun x => |exp - x| == m)
            = rest.findIdx (fun x => |exp - x| == m) + 1 := by
          rw [List.findIdx_cons]
          simp [hne]
        dsimp only
        rw [hfi, List.getD_cons_succ]
        have harith : i + 1 + rest.findIdx (fun x => |exp - x| == m)
            = i + (rest.findIdx (fun x => |exp - x| == m) + 1) := by omega
        rw [harith]

theorem candDiffs_none (exp : ℚ) (l : List ℚ) :
    candDiffs exp none l = admissibleDiffs exp l := by
  unfold candDiffs admissibleDiffs
  apply List.filter_congr
  intro x _
  simp [underBound]

theorem findBest_eq (exp : ℚ) (pool : List ℚ) :
    findBest exp pool =
      match (admissibleDiffs exp pool).min? with
      | none => none
      | some m =>
        some (pool.findIdx (fun d => |exp - d| == m),
              pool.getD (pool.findIdx (fun d => |exp - d| == m)) 0, m) := by
  rw [findBest, findBestAux_eq]
  simp only [Option.map_none', candDiffs_none]
  cases (admissibleDiffs exp pool).min? with
  | none => rfl
  | some m => simp

theorem findBest_eq_specSelect (exp : ℚ) (pool : List ℚ) :
    findBest exp pool
      = (specSelect exp pool).map (fun p => (p.1, pool.getD p.1 0, p.2)) := by
  rw [findBest_eq, specSelect]
  cases (admissibleDiffs exp pool).min? with
  | none => rfl
  | some m => simp

theorem vdStep_eq_specStep : vdStep = specStep := by
  funext st exp
  rw [vdStep, specStep, findBest_eq_specSelect]
  cases h : specSelect exp st.extra with
  | none => rfl
  | some p =>
    rcases p with ⟨i, m⟩
    simp

theorem statusOf_eq_specStatus (st : VDState) :
    (if st.missing.length = 0 ∧ st.extra.length = 0 then ValidationStatus.PERFECT
     else if st.missing.length > 0 ∧ st.extra.length = 0 then ValidationStatus.MISSING
     else if st.missing.length = 0 ∧ st.extra.length > 0 then ValidationStatus.EXTRA
     else ValidationStatus.MISMATCH) = specStatus st ∧
    (if st.missing.length = 0 ∧ st.extra.length = 0 then ValidationStatus.PERFECT
     else if st.missing.length > 0 ∧ st.extra.length = 0 then ValidationStatus.MISSING
     else if st.missing.length = 0 ∧ st.extra.length > 0 then ValidationStatus.EXTRA
     else ValidationStatus.MISMATCH) ≠ ValidationStatus.NO_MATCH := by
  unfold specStatus
  by_cases h1 : st.missing = [] <;> by_cases h2 : st.extra = [] <;>
    simp [h1, h2, List.length_eq_zero, List.length_pos]

/-- C1: `validateDimensions` coincides with the reference greedy algorithm
of the specification: both lists sorted ascending, each expected value (in
ascending order) paired with the remaining detected value of minimal
absolute difference when that difference is within the 0.5 tolerance (the
first such pool element on ties), the paired value removed from the pool,
unmatched expected values collected in order, leftover pool values becoming
the unmatched detected ones; the status is PERFECT / MISSING / EXTRA /
MISMATCH according to which unmatched lists are empty, and NO_MATCH is
never returned. -/
theorem validateDimensions_eq_specGreedy (detected : List ℚ) (spec : SpecRow) :
    (validateDimensions detected spec).«matches»
        = (specValidate detected spec.expectedDimensions).«matches» ∧
    (validateDimensions detected spec).missing
        = (specValidate detected spec.expectedDimensions).missing ∧
    (validateDimensions detected spec).extra
        = (specValidate detected spec.expectedDimensions).extra ∧
    (validateDimensions detected spec).status
        = specStatus (specValidate detected spec.expectedDimensions) ∧
    (validateDimensions detected spec).status ≠ ValidationStatus.NO_MATCH := by
  unfold validateDimensions specValidate
  rw [vdStep_eq_specStep]
  exact ⟨rfl, rfl, rfl, (statusOf_eq_specStatus _).1, (statusOf_eq_specStatus _).2⟩

/-- C3: a detected value pairs with an expected value exactly when their
absolute difference is at most 0.5: the inner search succeeds iff some pool
element is within 0.5, a difference of exactly 0.5 matches (status PERFECT),
and a difference of 0.50001 does not (status MISMATCH). -/
theorem tolerance_boundary :
    TOLERANCE = 0.5 ∧
    (∀ (exp : ℚ) (pool : List ℚ),
      (findBest exp pool).isSome ↔ ∃ d ∈ pool, |exp - d| ≤ 0.5) ∧
    (validateDimensions [24.5] (mkSpec [24])).status = ValidationStatus.PERFECT ∧
    (validateDimensions [24.50001] (mkSpec [24])).status = ValidationStatus.MISMATCH := by
  refine ⟨rfl, ?_, ?_, ?_⟩
  · intro exp pool
    constructor
    · intro hs
      cases hmin : (admissibleDiffs exp pool).min? with
      | none => rw [findBest_eq, hmin] at hs; simp at hs
      | some m =>
        have hmem := (rat_min?_eq_some_iff.mp hmin).1
        rcases mem_admissibleDiffs.mp hmem with ⟨⟨d, hd, hdm⟩, hmle⟩
        exact ⟨d, hd, by rw [hdm]; exact hmle⟩
    · rintro ⟨d, hd, hle⟩
      have hmem : |exp - d| ∈ admissibleDiffs exp pool :=
        mem_admissibleDiffs.mpr ⟨⟨d, hd, rfl⟩, hle⟩
      cases hmin : (admissibleDiffs exp pool).min? with
      | none =>
        rw [List.min?_eq_none_iff.mp hmin] at hmem
        exact absurd hmem (List.not_mem_nil _)
      | some m => rw [findBest_eq, hmin]; simp
  · have habs : |(24 : ℚ) - 24.5| = 0.5 := by
      rw [show (24 : ℚ) - 24.5 = -0.5 by norm_num, abs_neg, abs_of_nonneg]
      norm_num
    have hfb : findBest 24 [24.5] = some (0, 24.5, 0.5) := by
      rw [show (0.5 : ℚ) = |(24 : ℚ) - 24.5| from habs.symm]
      simp [findBest, findBestAux, habs, TOLERANCE]
    simp [validateDimensions, mkSpec, vdStep, hfb]
  · have habs : |(24 : ℚ) - 24.50001| = 0.50001 := by
      rw [show (24 : ℚ) - 24.50001 = -0.50001 by norm_num, abs_neg, abs_of_nonneg]
      norm_num
    have hfb : findBest 24 [24.50001] = none := by
      have hgt : ¬(|(24 : ℚ) - 24.50001| ≤ TOLERANCE) := by
        rw [habs, TOLERANCE]
        norm_num
      simp [findBest, findBestAux, hgt]
    simp [validateDimensions, mkSpec, vdStep, hfb]

/-- C10: on a tie — two remaining pool values at the same minimal admissible
difference from the current expected value — the element occurring earlier
in the ascending-sorted pool (the smaller detected value) is paired and
removed; in general the inner search never selects an index when an earlier
index attains the selected difference. -/
theorem tiePrefersSmaller (e d₁ d₂ : ℚ) (hlt : d₁ < d₂)
    (heq : |e - d₁| = |e - d₂|) (htol : |e - d₁| ≤ TOLERANCE) :
    (validateDimensions [d₁, d₂] (mkSpec [e])).«matches» = [⟨e, d₁, |e - d₁|⟩] ∧
    (validateDimensions [d₁, d₂] (mkSpec [e])).extra = [d₂] ∧
    ∀ (exp : ℚ) (pool : List ℚ) (i : Nat) (d m : ℚ),
      findBest exp pool = some (i, d, m) →
      ∀ j (hj : j < pool.length), j < i → |exp - pool.get ⟨j, hj⟩| ≠ m := by
  have hsort : [d₁, d₂].mergeSort (fun a b => decide (a ≤ b)) = [d₁, d₂] := by
    apply List.mergeSort_of_sorted
    simp [hlt.le]
  have h2 : (decide (|e - d₂| ≤ TOLERANCE ∧ |e - d₂| < |e - d₁|)) = false := by
    simp [← heq]
  have hfb : findBest e [d₁, d₂] = some (0, d₁, |e - d₁|) := by
    simp [findBest, findBestAux, htol, h2]
  refine ⟨?_, ?_, ?_⟩
  · simp [validateDimensions, mkSpec, hsort, vdStep, hfb]
  · simp [validateDimensions, mkSpec, hsort, vdStep, hfb]
  · intro exp pool i d m hfind j hj hji hcontra
    rw [findBest_eq] at hfind
    cases hmin : (admissibleDiffs exp pool).min? with
    | none => rw [hmin] at hfind; simp at hfind
    | some m' =>
      rw [hmin] at hfind
      simp only [Option.some.injEq, Prod.mk.injEq] at hfind
      obtain ⟨hi, _, hm⟩ := hfind
      have hnp := @List.not_of_lt_findIdx _ (fun x => |exp - x| == m')
        pool _ (hi ▸ hji)
      rw [List.get_eq_getElem] at hcontra
      have hbeq : (|exp - pool[j]| == m') = true := by
        rw [beq_iff_eq, hm]
        exact hcontra
      rw [hnp] at hbeq
      exact Bool.false_ne_true hbeq

/-- Witness for C10 at the concrete tie `e = 24`, pool `[23.5, 24.5]`. -/
theorem tiePrefersSmaller_witness :
    (validateDimensions [23.5, 24.5] (mkSpec [24])).«matches»
        = [⟨24, 23.5, |(24 : ℚ) - 23.5|⟩] ∧
    (validateDimensions [23.5, 24.5] (mkSpec [24])).extra = [24.5] := by
  have h1 : (23.5 : ℚ) < 24.5 := by norm_num
  have h2 : |(24 : ℚ) - 23.5| = |(24 : ℚ) - 24.5| := by
    rw [show (24 : ℚ) - 23.5 = 0.5 by norm_num,
        show (24 : ℚ) - 24.5 = -0.5 by norm_num, abs_neg]
  have h3 : |(24 : ℚ) - 23.5| ≤ TOLERANCE := by
    rw [show (24 : ℚ) - 23.5 = 0.5 by norm_num, abs_of_nonneg (by norm_num)]
    rw [TOLERANCE]
  exact ⟨(tiePrefersSmaller 24 23.5 24.5 h1 h2 h3).1,
         (tiePrefersSmaller 24 23.5 24.5 h1 h2 h3).2.1⟩

/-! ### Matcher emptiness and the caller-made NO_MATCH (C5) -/

theorem includesSub_eq_true_iff {hay needle : Str} :
    includesSub hay needle = true ↔ needle <:+: hay := by
  unfold includesSub
  rw [List.any_eq_true]
  constructor
  · rintro ⟨t, ht, hp⟩
    rw [List.mem_tails] at ht
    rw [ List.isPrefixOf_iff_prefix] at hp
    exact List.infix_iff_prefix_suffix.mpr ⟨t, hp, ht⟩
  · intro h
    rcases List.infix_iff_prefix_suffix.mp h with ⟨t, hp, ht⟩
    exact ⟨t, (List.mem_tails _ _).mpr ht, List.isPrefixOf_iff_prefix.mpr hp⟩

theorem validate_status_ne (dims : List ℚ) (spec : SpecRow) :
    (validateDimensions dims spec).status ≠ ValidationStatus.NO_MATCH := by
  unfold validateDimensions
  exact (statusOf_eq_specStatus _).2

/-- C5: with an empty file slug, or when no reference slug occurs inside the
file slug, the Matcher returns the empty list (and, being a total function,
raises nothing); the Validator never produces `NO_MATCH`; and in the
single-analysis driver a produced result has status `NO_MATCH` exactly when
the Matcher came up empty. -/
theorem matcher_empty_and_noMatch_by_caller :
    (∀ (fileName : Str) (specs : List SpecRow),
      toSlug (stripExtension fileName) = [] → findAllMatchingSpecs fileName specs = []) ∧
    (∀ (fileName : Str) (specs : List SpecRow),
      (∀ spec ∈ specs, ¬(spec.productSlug <:+: toSlug (stripExtension fileName))) →
      findAllMatchingSpecs fileName specs = []) ∧
    (∀ (dims : List ℚ) (spec : SpecRow),
      (validateDimensions dims spec).status ≠ ValidationStatus.NO_MATCH) ∧
    (∀ (specs : List SpecRow) (fileName : Str) (dims : List ℚ) (r : ValidationResult),
      handleAnalysisValidation specs fileName dims = some r →
      (r.status = ValidationStatus.NO_MATCH ↔ findAllMatchingSpecs fileName specs = [])) := by
  refine ⟨?_, ?_, fun dims spec => validate_status_ne dims spec, ?_⟩
  · intro fileName specs h
    unfold findAllMatchingSpecs
    rw [if_pos h]
  · intro fileName specs hnone
    unfold findAllMatchingSpecs
    by_cases hfs : toSlug (stripExtension fileName) = []
    · rw [if_pos hfs]
    · rw [if_neg hfs]
      have hfilter : specs.filter
          (fun spec => spec.productSlug ≠ [] &&
            includesSub (toSlug (stripExtension fileName)) spec.productSlug) = [] := by
        rw [List.filter_eq_nil_iff]
        intro spec hspec hcontra
        rw [Bool.and_eq_true] at hcontra
        exact hnone spec hspec (includesSub_eq_true_iff.mp hcontra.2)
      rw [hfilter]
      simp
  · intro specs fileName dims r hr
    unfold handleAnalysisValidation at hr
    by_cases hc : specs.length > 0 ∧ fileName ≠ []
    · rw [if_pos hc] at hr
      unfold findMatchingSpec at hr
      cases hh : (findAllMatchingSpecs fileName specs).head? with
      | none =>
        rw [hh] at hr
        injection hr with hr
        subst hr
        rw [List.head?_eq_none_iff] at hh
        simp [noMatchResult, hh]
      | some m =>
        rw [hh] at hr
        injection hr with hr
        subst hr
        constructor
        · intro habs
          exact absurd habs (validate_status_ne dims m)
        · intro hempty
          rw [hempty] at hh
          exact absurd hh (by simp)
    · rw [if_neg hc] at hr
      exact absurd hr (by simp)

/-! ### The batch driver cost rule (C6) -/

theorem processItem_called_matched (ai : Nat → Except Str (List ℚ)) (i : Nat)
    (item : BatchItem) :
    (processItem ai i item).2 = true → item.matchedSpecs ≠ [] := by
  unfold processItem
  by_cases h1 : item.status = BatchStatus.COMPLETED ∨ item.status = BatchStatus.SKIPPED
  · rw [if_pos h1]; simp
  · rw [if_neg h1]
    by_cases h2 : item.matchedSpecs.length = 0
    · rw [if_pos h2]; simp
    · rw [if_neg h2]
      intro _ hnil
      exact h2 (by rw [hnil]; rfl)

theorem processItem_skip (ai : Nat → Except Str (List ℚ)) (i : Nat) (item : BatchItem)
    (hm : item.matchedSpecs = []) (hc : item.status ≠ BatchStatus.COMPLETED)
    (hs : item.status ≠ BatchStatus.SKIPPED) :
    processItem ai i item
      = ({ item with status := BatchStatus.SKIPPED,
                     error := some "Skipped: No matching Spec Row found".toList },
         false) := by
  unfold processItem
  rw [if_neg (by tauto), if_pos (by rw [hm]; rfl)]

theorem processBatchAux_fst_get? (ai : Nat → Except Str (List ℚ)) :
    ∀ (items : List BatchItem) (base j : Nat),
      (processBatchAux ai base items).1.get? j
        = (items.get? j).map (fun it => (processItem ai (base + j) it).1) := by
  intro items
  induction items with
  | nil => intro base j; simp [processBatchAux]
  | cons item rest ih =>
    intro base j
    cases j with
    | zero => simp [processBatchAux]
    | succ j' =>
      simp only [processBatchAux, List.get?_cons_succ]
      rw [ih (base + 1) j']
      have harith : base + 1 + j' = base + (j' + 1) := by omega
      rw [harith]

theorem processBatchAux_mem_calls (ai : Nat → Except Str (List ℚ)) :
    ∀ (items : List BatchItem) (base i : Nat),
      i ∈ (processBatchAux ai base items).2 ↔
        ∃ j item, items.get? j = some item ∧ i = base + j ∧
          (processItem ai (base + j) item).2 = true := by
  intro items
  induction items with
  | nil =>
    intro base i
    simp [processBatchAux]
  | cons item rest ih =>
    intro base i
    simp only [processBatchAux]
    constructor
    · intro hmem
      rw [List.mem_append] at hmem
      rcases hmem with hmem | hmem
      · by_cases hcall : (processItem ai base item).2 = true
        · refine ⟨0, item, rfl, ?_, ?_⟩
          · rw [if_pos hcall] at hmem
            simpa using hmem
          · simpa using hcall
        · rw [if_neg hcall] at hmem
          exact absurd hmem (List.not_mem_nil i)
      · rcases (ih (base + 1) i).mp hmem with ⟨j, it, hget, hi, hcall⟩
        refine ⟨j + 1, it, by simpa using hget, by omega, ?_⟩
        have : base + (j + 1) = base + 1 + j := by omega
        rw [this]
        exact hcall
    · rintro ⟨j, it, hget, hi, hcall⟩
      rw [List.mem_append]
      cases j with
      | zero =>
        left
        injection hget with hget
        subst hget
        simp only [Nat.add_zero] at hi hcall
        rw [if_pos hcall]
        simp [hi]
      | succ j' =>
        right
        refine (ih (base + 1) i).mpr ⟨j', it, by simpa using hget, by omega, ?_⟩
        have : base + 1 + j' = base + (j' + 1) := by omega
        rw [this]
        exact hcall

/-- C6: in the batch driver, a queued (pending) item with an empty
precomputed matched-spec list is marked SKIPPED and the external extraction
call is never issued for it; conversely the extraction call is issued only
at positions whose item has at least one matched reference entry.  (The
matched-spec list is part of the queued item, fixed by the Matcher in
`handleBatchSelection` before `processBatch` runs.) -/
theorem processBatch_cost_rule :
    (∀ (ai : Nat → Except Str (List ℚ)) (items : List BatchItem) (i : Nat),
      i ∈ (processBatch ai items).2 →
      ∃ item, items.get? i = some item ∧ item.matchedSpecs ≠ []) ∧
    (∀ (ai : Nat → Except Str (List ℚ)) (items : List BatchItem) (i : Nat)
       (item : BatchItem),
      items.get? i = some item → item.matchedSpecs = [] →
      item.status = BatchStatus.PENDING →
      (processBatch ai items).1.get? i
        = some { item with status := BatchStatus.SKIPPED,
                           error := some "Skipped: No matching Spec Row found".toList } ∧
      i ∉ (processBatch ai items).2) := by
  constructor
  · intro ai items i hmem
    rcases (processBatchAux_mem_calls ai items 0 i).mp hmem with ⟨j, item, hget, hi, hcall⟩
    refine ⟨item, ?_, processItem_called_matched ai (0 + j) item hcall⟩
    rw [hi]
    simpa using hget
  · intro ai items i item hget hm hp
    have hskip := processItem_skip ai i item hm
      (by rw [hp]; exact fun h => by cases h) (by rw [hp]; exact fun h => by cases h)
    constructor
    · rw [processBatch, processBatchAux_fst_get?, hget]
      simp only [Option.map_some', Nat.zero_add]
      rw [hskip]
    · intro hmem
      rcases (processBatchAux_mem_calls ai items 0 i).mp hmem with ⟨j, it, hget2, hi, hcall⟩
      have hij : j = i := by omega
      subst hij
      rw [hget] at hget2
      injection hget2 with hget2
      subst hget2
      rw [Nat.zero_add, hskip] at hcall
      exact absurd hcall (by simp)

/-- Witness for C6 at a concrete one-item queue with no matches. -/
theorem processBatch_cost_rule_witness :
    (processBatch (fun _ => Except.ok [])
        [{ fileName := [], status := BatchStatus.PENDING, matchedSpecs := [],
           aiDims := none, validations := [], error := none }]).1.get? 0
      = some { fileName := [], status := BatchStatus.SKIPPED, matchedSpecs := [],
               aiDims := none, validations := [],
               error := some "Skipped: No matching Spec Row found".toList } ∧
    0 ∉ (processBatch (fun _ => Except.ok [])
        [{ fileName := [], status := BatchStatus.PENDING, matchedSpecs := [],
           aiDims := none, validations := [], error := none }]).2 :=
  processBatch_cost_rule.2 (fun _ => Except.ok [])
    [{ fileName := [], status := BatchStatus.PENDING, matchedSpecs := [],
       aiDims := none, validations := [], error := none }] 0
    { fileName := [], status := BatchStatus.PENDING, matchedSpecs := [],
      aiDims := none, validations := [], error := none } rfl rfl rfl

/-! ### The Matcher returns exactly the ranked candidates (C2) -/

theorem includesSub_eq_decide (hay needle : Str) :
    includesSub hay needle = decide (needle <:+: hay) := by
  by_cases h : needle <:+: hay
  · rw [decide_eq_true h]
    exact includesSub_eq_true_iff.mpr h
  · rw [decide_eq_false h, ← Bool.not_eq_true]
    exact fun hc => h (includesSub_eq_true_iff.mp hc)

theorem localeCompare_neg (a : Str) : ∀ b, localeCompare a b = -localeCompare b a := by
  induction a with
  | nil => intro b; cases b <;> simp [localeCompare]
  | cons x xs ih =>
    intro b
    cases b with
    | nil => simp [localeCompare]
    | cons y ys =>
      unfold localeCompare
      by_cases h1 : x.toNat < y.toNat
      · rw [if_pos h1, if_neg (by omega), if_pos h1]
      · by_cases h2 : y.toNat < x.toNat
        · rw [if_neg h1, if_pos h2, if_pos h2]
          norm_num
        · rw [if_neg h1, if_neg h2, if_neg h2, if_neg h1]
          exact ih ys

theorem localeCompare_trans {a : Str} : ∀ {b c : Str},
    localeCompare a b ≤ 0 → localeCompare b c ≤ 0 → localeCompare a c ≤ 0 := by
  induction a with
  | nil => intro b c _ _; cases c <;> simp [localeCompare]
  | cons x xs ih =>
    intro b c h1 h2
    cases b with
    | nil => simp [localeCompare] at h1
    | cons y ys =>
      cases c with
      | nil => simp [localeCompare] at h2
      | cons z zs =>
        unfold localeCompare at h1 h2 ⊢
        by_cases hxy : x.toNat < y.toNat
        · rw [if_pos hxy] at h1
          by_cases hyz : y.toNat < z.toNat
          · rw [if_pos (by omega)]
            norm_num
          · by_cases hzy : z.toNat < y.toNat
            · rw [if_neg hyz, if_pos hzy] at h2
              norm_num at h2
            · rw [if_pos (by omega)]
              norm_num
        · by_cases hyx : y.toNat < x.toNat
          · rw [if_neg hxy, if_pos hyx] at h1
            norm_num at h1
          · rw [if_neg hxy, if_neg hyx] at h1
            by_cases hyz : y.toNat < z.toNat
            · rw [if_pos (by omega)]
              norm_num
            · by_cases hzy : z.toNat < y.toNat
              · rw [if_neg hyz, if_pos hzy] at h2
                norm_num at h2
              · rw [if_neg hyz, if_neg hzy] at h2
                rw [if_neg (by omega), if_neg (by omega)]
                exact ih h1 h2

theorem specCompare_total (a b : SpecRow) :
    specCompare a b ≤ 0 ∨ specCompare b a ≤ 0 := by
  unfold specCompare
  by_cases hlen : b.productSlug.length = a.productSlug.length
  · rw [if_neg (by omega), if_neg (by omega), localeCompare_neg]
    omega
  · rw [if_pos (by omega), if_pos (by omega)]
    omega

theorem specCompare_trans {a b c : SpecRow}
    (h1 : specCompare a b ≤ 0) (h2 : specCompare b c ≤ 0) : specCompare a c ≤ 0 := by
  unfold specCompare at h1 h2 ⊢
  by_cases hab : b.productSlug.length = a.productSlug.length
  · rw [if_neg (by omega)] at h1
    by_cases hbc : c.productSlug.length = b.productSlug.length
    · rw [if_neg (by omega)] at h2
      rw [if_neg (by omega)]
      exact localeCompare_trans h1 h2
    · rw [if_pos (by omega)] at h2
      rw [if_pos (by omega)]
      omega
  · rw [if_pos (by omega)] at h1
    by_cases hbc : c.productSlug.length = b.productSlug.length
    · rw [if_pos (by omega)]
      omega
    · rw [if_pos (by omega)] at h2
      by_cases hac : c.productSlug.length = a.productSlug.length
      · omega
      · rw [if_pos (by omega)]
        omega

theorem matchPred_eq (fileSlug : Str) (spec : SpecRow) :
    (decide (spec.productSlug ≠ []) && includesSub fileSlug spec.productSlug)
      = decide (spec.productSlug ≠ [] ∧ spec.productSlug <:+: fileSlug) := by
  rw [Bool.decide_and, includesSub_eq_decide]

/-- C2: `findAllMatchingSpecs` returns exactly the reference entries whose
non-empty `productSlug` occurs as a contiguous substring of the slugified,
extension-stripped file name (a permutation of that filtered sublist, so
all candidates are returned, not only the first), ordered by strictly
descending slug length with ties broken by ascending `localeCompare` on the
product names. -/
theorem findAllMatchingSpecs_exact_ranked (fileName : Str) (specs : List SpecRow) :
    List.Perm (findAllMatchingSpecs fileName specs)
      (specs.filter (fun spec =>
        decide (spec.productSlug ≠ [] ∧
          spec.productSlug <:+: toSlug (stripExtension fileName)))) ∧
    List.Pairwise (fun a b =>
        b.productSlug.length < a.productSlug.length ∨
        (b.productSlug.length = a.productSlug.length ∧
          localeCompare a.productName b.productName ≤ 0))
      (findAllMatchingSpecs fileName specs) := by
  have hfilter : specs.filter (fun spec => spec.productSlug ≠ [] &&
        includesSub (toSlug (stripExtension fileName)) spec.productSlug)
      = specs.filter (fun spec =>
        decide (spec.productSlug ≠ [] ∧
          spec.productSlug <:+: toSlug (stripExtension fileName))) := by
    apply List.filter_congr
    intro spec _
    exact matchPred_eq _ spec
  unfold findAllMatchingSpecs
  by_cases hfs : toSlug (stripExtension fileName) = []
  · rw [if_pos hfs]
    constructor
    · have hnil : specs.filter (fun spec =>
          decide (spec.productSlug ≠ [] ∧
            spec.productSlug <:+: toSlug (stripExtension fileName))) = [] := by
        rw [List.filter_eq_nil_iff]
        intro spec _ hc
        rw [decide_eq_true_eq] at hc
        rw [hfs] at hc
        exact hc.1 (List.eq_nil_of_infix_nil hc.2)
      rw [hnil]
    · exact List.Pairwise.nil
  · rw [if_neg hfs]
    by_cases hc : (specs.filter (fun spec => spec.productSlug ≠ [] &&
        includesSub (toSlug (stripExtension fileName)) spec.productSlug)).length = 0
    · rw [if_pos hc]
      rw [List.length_eq_zero] at hc
      constructor
      · rw [← hfilter, hc]
      · exact List.Pairwise.nil
    · rw [if_neg hc]
      constructor
      · exact (List.mergeSort_perm _ _).trans (hfilter ▸ List.Perm.refl _)
      · have hsorted := @List.sorted_mergeSort _
          (fun a b => decide (specCompare a b ≤ 0))
          (fun a b c hab hbc => decide_eq_true
            (specCompare_trans (of_decide_eq_true hab) (of_decide_eq_true hbc)))
          (fun a b => by rcases specCompare_total a b with h | h <;> simp [h])
          (specs.filter (fun spec => spec.productSlug ≠ [] &&
            includesSub (toSlug (stripExtension fileName)) spec.productSlug))
        refine hsorted.imp ?_
        intro a b hab
        replace hab := of_decide_eq_true hab
        unfold specCompare at hab
        by_cases h : b.productSlug.length = a.productSlug.length
        · right
          refine ⟨h, ?_⟩
          rwa [if_neg (by omega)] at hab
        · left
          rw [if_pos (by omega)] at hab
          omega

/-! ### The built expected dimensions (C4) -/

theorem pushInRange_foldl (nums : List ℚ) : ∀ (acc : List ℚ),
    nums.foldl (fun a num => if 0 < num ∧ num < 2000 then a ++ [num] else a) acc
      = acc ++ nums.filter (fun n => decide (0 < n) && decide (n < 2000)) := by
  induction nums with
  | nil => intro acc; simp
  | cons n rest ih =>
    intro acc
    rw [List.foldl_cons, List.filter_cons]
    by_cases h : 0 < n ∧ n < 2000
    · rw [if_pos h, ih,
        show (decide (0 < n) && decide (n < 2000)) = true from by
          rw [← Bool.decide_and]; exact decide_eq_true h]
      simp
    · rw [if_neg h, ih,
        show (decide (0 < n) && decide (n < 2000)) = false from by
          rw [← Bool.decide_and]; exact decide_eq_false h]
      simp

theorem dims_foldl_eq (config : Option ValidationConfig) (allowedKeys : List Str) :
    ∀ (row : Row) (acc : List ℚ),
      row.foldl (fun acc kv =>
        if entrySkipped config allowedKeys kv.1 then acc
        else (extractNumbers kv.2).foldl
          (fun a num => if 0 < num ∧ num < 2000 then a ++ [num] else a) acc) acc
      = acc ++ (row.filter (fun kv => !entrySkipped config allowedKeys kv.1)).flatMap
          (fun kv => (extractNumbers kv.2).filter
            (fun n => decide (0 < n) && decide (n < 2000))) := by
  intro row
  induction row with
  | nil => intro acc; simp
  | cons kv rest ih =>
    intro acc
    rw [List.foldl_cons, List.filter_cons]
    by_cases h : entrySkipped config allowedKeys kv.1 = true
    · rw [if_pos h, ih, show (!entrySkipped config allowedKeys kv.1) = false from by
        rw [h]; rfl]
      simp
    · rw [Bool.not_eq_true] at h
      rw [if_neg (by rw [h]; exact Bool.false_ne_true),
        pushInRange_foldl, ih, show (!entrySkipped config allowedKeys kv.1) = true from by
          rw [h]; rfl]
      simp

theorem buildSpecRow_expectedDimensions (config : Option ValidationConfig)
    (allowedKeys : List Str) (nameKey sizeKey : Str) (row : Row) :
    (buildSpecRow config allowedKeys nameKey sizeKey row).expectedDimensions
      = ((row.filter (fun kv => !entrySkipped config allowedKeys kv.1)).flatMap
          (fun kv => (extractNumbers kv.2).filter
            (fun n => decide (0 < n) && decide (n < 2000)))).mergeSort
          (fun a b => decide (a ≤ b)) := by
  unfold buildSpecRow
  dsimp only
  rw [dims_foldl_eq, List.nil_append]

theorem buildSpecRow_originalRow (config : Option ValidationConfig)
    (allowedKeys : List Str) (nameKey sizeKey : Str) (row : Row) :
    (buildSpecRow config allowedKeys nameKey sizeKey row).originalRow = row := rfl

/-- C4: a built entry's `expectedDimensions` is exactly the multiset of
numbers extracted from the non-skipped (eligible) columns that lie strictly
inside (0, 2000), concatenated across the row's entries and sorted
ascending; consequently every member is strictly between 0 and 2000, this
holds of every entry built by `parseSpecFile`, and a cell holding
`"SKU-20240501"` contributes no value at all (its only extracted number,
-20240501, is out of range). -/
theorem expectedDimensions_exact :
    (∀ (config : Option ValidationConfig) (allowedKeys : List Str)
       (nameKey sizeKey : Str) (row : Row),
      (buildSpecRow config allowedKeys nameKey sizeKey row).expectedDimensions.Pairwise
          (· ≤ ·) ∧
      List.Perm (buildSpecRow config allowedKeys nameKey sizeKey row).expectedDimensions
        ((row.filter (fun kv => !entrySkipped config allowedKeys kv.1)).flatMap
          (fun kv => (extractNumbers kv.2).filter
            (fun n => decide (0 < n) && decide (n < 2000)))) ∧
      ∀ q ∈ (buildSpecRow config allowedKeys nameKey sizeKey row).expectedDimensions,
        0 < q ∧ q < 2000) ∧
    (∀ (jsonData : List Row) (headers : List Str) (config : Option ValidationConfig),
      ∀ s ∈ parseSpecFile jsonData headers config,
        s.expectedDimensions.Pairwise (· ≤ ·) ∧
        List.Perm s.expectedDimensions
          ((s.originalRow.filter (fun kv =>
              !entrySkipped config (allowedKeysOf headers config) kv.1)).flatMap
            (fun kv => (extractNumbers kv.2).filter
              (fun n => decide (0 < n) && decide (n < 2000)))) ∧
        ∀ q ∈ s.expectedDimensions, 0 < q ∧ q < 2000) ∧
    (extractNumbers (CellValue.str "SKU-20240501".toList)).filter
        (fun n => decide (0 < n) && decide (n < 2000)) = [] := by
  have main : ∀ (config : Option ValidationConfig) (allowedKeys : List Str)
      (nameKey sizeKey : Str) (row : Row),
      (buildSpecRow config allowedKeys nameKey sizeKey row).expectedDimensions.Pairwise
          (· ≤ ·) ∧
      List.Perm (buildSpecRow config allowedKeys nameKey sizeKey row).expectedDimensions
        ((row.filter (fun kv => !entrySkipped config allowedKeys kv.1)).flatMap
          (fun kv => (extractNumbers kv.2).filter
            (fun n => decide (0 < n) && decide (n < 2000)))) ∧
      ∀ q ∈ (buildSpecRow config allowedKeys nameKey sizeKey row).expectedDimensions,
        0 < q ∧ q < 2000 := by
    intro config allowedKeys nameKey sizeKey row
    rw [buildSpecRow_expectedDimensions]
    refine ⟨?_, List.mergeSort_perm _ _, ?_⟩
    · have hs := @List.sorted_mergeSort _ (fun a b : ℚ => decide (a ≤ b))
        (fun a b c hab hbc =>
          decide_eq_true (le_trans (of_decide_eq_true hab) (of_decide_eq_true hbc)))
        (fun a b => by rcases le_total a b with h | h <;> simp [h])
        ((row.filter (fun kv => !entrySkipped config allowedKeys kv.1)).flatMap
          (fun kv => (extractNumbers kv.2).filter
            (fun n => decide (0 < n) && decide (n < 2000))))
      exact hs.imp (fun h => of_decide_eq_true h)
    · intro q hq
      rw [List.mem_mergeSort, List.mem_flatMap] at hq
      rcases hq with ⟨kv, _, hq⟩
      rw [List.mem_filter, Bool.and_eq_true] at hq
      exact ⟨of_decide_eq_true hq.2.1, of_decide_eq_true hq.2.2⟩
  refine ⟨main, ?_, ?_⟩
  · intro jsonData headers config s hs
    unfold parseSpecFile at hs
    by_cases hnil : jsonData = []
    · rw [if_pos hnil] at hs
      exact absurd hs (List.not_mem_nil s)
    · rw [if_neg hnil] at hs
      rw [List.mem_filter, List.mem_map] at hs
      rcases hs.1 with ⟨row, _, hrow⟩
      subst hrow
      rw [buildSpecRow_originalRow]
      exact main config (allowedKeysOf headers config) _ _ row
  · have hscan : scanNums "SKU-20240501".toList = ["-20240501".toList] := by decide
    have hne : ("SKU-20240501".toList : Str) ≠ [] := by decide
    have hext : extractNumbers (CellValue.str "SKU-20240501".toList)
        = [parseToken "-20240501".toList] := by
      simp only [extractNumbers]
      rw [if_neg hne, hscan, List.map_cons, List.map_nil]
    have hdig : digitsVal "20240501".toList = 20240501 := by decide
    have hpt : parseToken "-20240501".toList
        = -((digitsVal "20240501".toList : ℕ) : ℚ) := rfl
    have hneg : ¬(0 < parseToken "-20240501".toList) := by
      rw [hpt, hdig]
      norm_num
    rw [hext, List.filter_cons,
      show (decide (0 < parseToken "-20240501".toList) &&
        decide (parseToken "-20240501".toList < 2000)) = false from by
        rw [decide_eq_false hneg, Bool.false_and]]
    rw [if_neg Bool.false_ne_true, List.filter_nil]

/-! ### Column-range degradation (C9) -/

theorem intRangeIncl_empty {start stop : Int} (h : stop < start) :
    intRangeIncl start stop = [] := by
  unfold intRangeIncl
  rw [show (stop + 1 - start).toNat = 0 from by omega]
  rfl

theorem allowedKeysOf_mem {headers : List Str} {config : Option ValidationConfig}
    {k : Str} (h : k ∈ allowedKeysOf headers config) : k ∈ headers := by
  unfold allowedKeysOf at h
  rw [List.mem_filterMap] at h
  rcases h with ⟨i, _, hi⟩
  unfold headerAt at hi
  by_cases hb : 0 ≤ i ∧ i.toNat < headers.length
  · rw [dif_pos hb] at hi
    injection hi with hi
    exact hi ▸ List.get_mem headers _ _
  · rw [dif_neg hb] at hi
    exact absurd hi (by simp)

theorem skipAll_foldl (config : Option ValidationConfig) (allowedKeys : List Str)
    (hall : ∀ k, entrySkipped config allowedKeys k = true) :
    ∀ (row : Row) (acc : List ℚ),
      row.foldl (fun acc kv =>
        if entrySkipped config allowedKeys kv.1 then acc
        else (extractNumbers kv.2).foldl
          (fun a num => if 0 < num ∧ num < 2000 then a ++ [num] else a) acc) acc
      = acc := by
  intro row
  induction row with
  | nil => intro acc; rfl
  | cons kv rest ih =>
    intro acc
    rw [List.foldl_cons, if_pos (hall kv.1), ih]

/-- C9: the table build never fails on the column range: with an inverted
range (start letter strictly after end letter) the eligible key set is
empty, so every entry built by `parseSpecFile` has empty
`expectedDimensions`; and in general every eligible key is an actual header
entry — indices beyond the header row are dropped, not errors. -/
theorem columnRange_degrades :
    (∀ (headers : List Str) (cfg : ValidationConfig),
      cfg.startCol ≠ [] → cfg.endCol ≠ [] →
      colLetterToIndex cfg.endCol < colLetterToIndex cfg.startCol →
      allowedKeysOf headers (some cfg) = []) ∧
    (∀ (headers : List Str) (cfg : ValidationConfig) (jsonData : List Row),
      cfg.startCol ≠ [] → cfg.endCol ≠ [] →
      colLetterToIndex cfg.endCol < colLetterToIndex cfg.startCol →
      ∀ s ∈ parseSpecFile jsonData headers (some cfg), s.expectedDimensions = []) ∧
    (∀ (headers : List Str) (config : Option ValidationConfig),
      ∀ k ∈ allowedKeysOf headers config, k ∈ headers) := by
  have hempty : ∀ (headers : List Str) (cfg : ValidationConfig),
      cfg.startCol ≠ [] → cfg.endCol ≠ [] →
      colLetterToIndex cfg.endCol < colLetterToIndex cfg.startCol →
      allowedKeysOf headers (some cfg) = [] := by
    intro headers cfg hs he hinv
    unfold allowedKeysOf
    dsimp only
    rw [if_pos ⟨hs, he⟩, intRangeIncl_empty hinv]
    rfl
  refine ⟨hempty, ?_, fun headers config k hk => allowedKeysOf_mem hk⟩
  intro headers cfg jsonData hs he hinv s hmem
  unfold parseSpecFile at hmem
  by_cases hnil : jsonData = []
  · rw [if_pos hnil] at hmem
    exact absurd hmem (List.not_mem_nil s)
  · rw [if_neg hnil] at hmem
    rw [List.mem_filter, List.mem_map] at hmem
    rcases hmem.1 with ⟨row, _, hrow⟩
    subst hrow
    have hall : ∀ k, entrySkipped (some cfg) (allowedKeysOf headers (some cfg)) k = true := by
      intro k
      unfold entrySkipped
      rw [if_pos (show cfgHasStartCol (some cfg) = true from by
        simp [cfgHasStartCol, hs]), hempty headers cfg hs he hinv]
      rfl
    unfold buildSpecRow
    dsimp only
    rw [skipAll_foldl _ _ hall, List.mergeSort_nil]

/-- Witness for C9 at a concrete inverted range `B`..`A`. -/
theorem columnRange_degrades_witness :
    allowedKeysOf ["H1".toList, "H2".toList] (some ⟨"B".toList, "A".toList⟩) = [] :=
  columnRange_degrades.1 ["H1".toList, "H2".toList] ⟨"B".toList, "A".toList⟩
    (by decide) (by decide) (by decide)

/-! ### Slug idempotence (C7) -/

theorem toLower_fix {c : Char} (h : isSlugChar c = true ∨ c = '-') :
    Char.toLower c = c := by
  unfold Char.toLower
  dsimp only
  rcases h with h | h
  · simp only [isSlugChar, Bool.or_eq_true, Bool.and_eq_true, decide_eq_true_eq] at h
    rw [if_neg (by omega)]
  · subst h
    rw [if_neg (by decide)]

theorem mem_hyphenate {l : Str} {c : Char} (h : c ∈ hyphenate l) :
    isSlugChar c = true ∨ c = '-' := by
  unfold hyphenate at h
  rw [List.mem_map] at h
  rcases h with ⟨a, _, ha⟩
  by_cases hs : isSlugChar a = true
  · rw [if_pos hs] at ha
    exact Or.inl (ha ▸ hs)
  · rw [if_neg hs] at ha
    exact Or.inr ha.symm

theorem collapse_subset : ∀ (l : Str), ∀ c ∈ collapse l, c ∈ l := by
  intro l
  induction l with
  | nil => simp [collapse]
  | cons a rest ih =>
    cases rest with
    | nil => simp [collapse]
    | cons b rest2 =>
      intro c hc
      rw [collapse] at hc
      by_cases h : a = '-' ∧ b = '-'
      · rw [if_pos h] at hc
        exact List.mem_cons_of_mem a (ih c hc)
      · rw [if_neg h] at hc
        rcases List.mem_cons.mp hc with h1 | h1
        · exact h1 ▸ List.mem_cons_self _ _
        · exact List.mem_cons_of_mem a (ih c h1)

theorem collapse_head? : ∀ (l : Str), (collapse l).head? = l.head? := by
  intro l
  induction l with
  | nil => rfl
  | cons a rest ih =>
    cases rest with
    | nil => rfl
    | cons b rest2 =>
      rw [collapse]
      by_cases h : a = '-' ∧ b = '-'
      · rw [if_pos h, ih]
        simp [h.1, h.2]
      · rw [if_neg h]
        rfl

theorem collapse_chain : ∀ (l : Str),
    List.Chain' (fun a b => ¬(a = '-' ∧ b = '-')) (collapse l) := by
  intro l
  induction l with
  | nil => exact List.chain'_nil
  | cons a rest ih =>
    cases rest with
    | nil => simp [collapse]
    | cons b rest2 =>
      rw [collapse]
      by_cases h : a = '-' ∧ b = '-'
      · rw [if_pos h]
        exact ih
      · rw [if_neg h]
        rw [List.chain'_cons']
        refine ⟨?_, ih⟩
        intro y hy
        rw [collapse_head? (b :: rest2)] at hy
        rw [List.head?_cons, Option.mem_some_iff] at hy
        subst hy
        exact h

theorem collapse_fix : ∀ (l : Str),
    List.Chain' (fun a b => ¬(a = '-' ∧ b = '-')) l → collapse l = l := by
  intro l
  induction l with
  | nil => intro _; rfl
  | cons a rest ih =>
    cases rest with
    | nil => intro _; rfl
    | cons b rest2 =>
      intro hch
      rw [List.chain'_cons] at hch
      rw [collapse, if_neg hch.1, ih hch.2]

theorem map_fix {f : Char → Char} : ∀ {l : Str}, (∀ c ∈ l, f c = c) → l.map f = l := by
  intro l
  induction l with
  | nil => intro _; rfl
  | cons a rest ih =>
    intro h
    rw [List.map_cons, h a (List.mem_cons_self a rest),
        ih (fun c hc => h c (List.mem_cons_of_mem a hc))]

theorem prefix_head?_eq {l₁ l₂ : Str} (h : l₁ <+: l₂) {c : Char}
    (hc : l₁.head? = some c) : l₂.head? = some c := by
  rcases h with ⟨t, rfl⟩
  cases l₁ with
  | nil => exact absurd hc (by simp)
  | cons a l => exact hc

theorem dropWhile_eq_self_of_head {p : Char → Bool} {l : Str}
    (h : ∀ c, l.head? = some c → p c = false) : l.dropWhile p = l := by
  cases l with
  | nil => rfl
  | cons a rest =>
    rw [List.dropWhile_cons_of_neg]
    rw [h a rfl]
    exact Bool.false_ne_true

theorem trimHyphens_fix {l : Str}
    (h1 : ∀ c, l.head? = some c → c ≠ '-')
    (h2 : ∀ c, l.reverse.head? = some c → c ≠ '-') :
    trimHyphens l = l := by
  unfold trimHyphens
  rw [dropWhile_eq_self_of_head (fun c hc => decide_eq_false (h1 c hc)),
      dropWhile_eq_self_of_head (fun c hc => decide_eq_false (h2 c hc)),
      List.reverse_reverse]

theorem trimHyphens_no_border (z : Str) :
    (∀ c, (trimHyphens z).head? = some c → c ≠ '-') ∧
    (∀ c, (trimHyphens z).reverse.head? = some c → c ≠ '-') := by
  unfold trimHyphens
  constructor
  · intro c hc
    have hsuf : ((z.dropWhile (fun c => decide (c = '-'))).reverse.dropWhile
        (fun c => decide (c = '-'))) <:+ (z.dropWhile (fun c => decide (c = '-'))).reverse :=
      List.dropWhile_suffix _
    have hpre : ((z.dropWhile (fun c => decide (c = '-'))).reverse.dropWhile
        (fun c => decide (c = '-'))).reverse <+: z.dropWhile (fun c => decide (c = '-')) := by
      rcases hsuf with ⟨t, ht⟩
      refine ⟨t.reverse, ?_⟩
      rw [← List.reverse_append, ht, List.reverse_reverse]
    have hu_head := prefix_head?_eq hpre hc
    have hnot := List.head?_dropWhile_not (fun c => decide (c = '-')) z
    simp only [hu_head] at hnot
    simpa using hnot
  · intro c hc
    rw [List.reverse_reverse] at hc
    have hnot := List.head?_dropWhile_not (fun c => decide (c = '-'))
      (z.dropWhile (fun c => decide (c = '-'))).reverse
    simp only [hc] at hnot
    simpa using hnot

theorem trimHyphens_subset {z : Str} : ∀ c ∈ trimHyphens z, c ∈ z := by
  intro c hc
  unfold trimHyphens at hc
  rw [List.mem_reverse] at hc
  have hc2 := ((List.dropWhile_suffix _).sublist).mem hc
  rw [List.mem_reverse] at hc2
  exact ((List.dropWhile_suffix _).sublist).mem hc2

theorem trimHyphens_chain {z : Str}
    (h : List.Chain' (fun a b => ¬(a = '-' ∧ b = '-')) z) :
    List.Chain' (fun a b => ¬(a = '-' ∧ b = '-')) (trimHyphens z) := by
  unfold trimHyphens
  have h1 := List.Chain'.suffix h (List.dropWhile_suffix (fun c => decide (c = '-')))
  have h2 : List.Chain' (fun a b => ¬(a = '-' ∧ b = '-'))
      (z.dropWhile (fun c => decide (c = '-'))).reverse := by
    rw [List.chain'_reverse]
    exact h1.imp (fun hab => by unfold flip; tauto)
  have h3 := List.Chain'.suffix h2 (List.dropWhile_suffix (fun c => decide (c = '-')))
  rw [List.chain'_reverse]
  exact h3.imp (fun hab => by unfold flip; tauto)

/-- C7: `toSlug` is idempotent: applying it twice equals applying it once,
i.e. every output (lower-case, runs of characters outside `[a-z0-9]`
replaced by a single hyphen, ends stripped of hyphens) is a fixed point. -/
theorem toSlug_idempotent (x : Str) : toSlug (toSlug x) = toSlug x := by
  by_cases hx : x = []
  · subst hx
    rfl
  · set y := toSlug x with hy
    have hydef : y = trimHyphens (collapse (hyphenate (x.map Char.toLower))) := by
      rw [hy]
      unfold toSlug
      rw [if_neg hx]
    have hchars : ∀ c ∈ y, isSlugChar c = true ∨ c = '-' := by
      intro c hc
      rw [hydef] at hc
      exact mem_hyphenate (collapse_subset _ c (trimHyphens_subset c hc))
    have hchain : List.Chain' (fun a b => ¬(a = '-' ∧ b = '-')) y := by
      rw [hydef]
      exact trimHyphens_chain (collapse_chain _)
    have hborder := trimHyphens_no_border (collapse (hyphenate (x.map Char.toLower)))
    rw [← hydef] at hborder
    by_cases hynil : y = []
    · rw [hynil]
      rfl
    · unfold toSlug
      rw [if_neg hynil]
      have hmap : y.map Char.toLower = y :=
        map_fix (fun c hc => toLower_fix (hchars c hc))
      rw [hmap]
      have hhyph : hyphenate y = y := by
        unfold hyphenate
        refine map_fix ?_
        intro c hc
        rcases hchars c hc with h | h
        · rw [if_pos h]
        · rw [if_neg (by rw [h]; decide)]
          exact h.symm
      rw [hhyph, collapse_fix y hchain, trimHyphens_fix hborder.1 hborder.2]
